import Mathlib

/-!
# Verification of the static interface-rename rules (`net/ifrename/static.py`)

A shallow embedding of `StaticRules`: the rule parser (`load_and_parse`),
the rule resolver (`generate`) and the rule serializer (`write`), together
with theorems settling the specification claims about them.

Strings are processed at the `List Char` level, with `String` at the API
boundaries.  The external collaborators (file I/O, logging, NIC discovery,
the `MACPCI` record constructor) are embedded as explicit arguments:
the line source as `Option (List String)` (none = unavailable/IO error),
logging is dropped (diagnostics only), and the fallible `MACPCI`
constructor as an `Option`-returning function parameter.
-/

/-- Python 2 `\s` character class (`re` module, ASCII): space, tab, newline,
carriage return, vertical tab, form feed.  `str.strip()` uses the same set. -/
def isSpacePy (c : Char) : Bool :=
  c == ' ' || c == '\t' || c == '\n' || c == '\r' || c == '\x0b' || c == '\x0c'

/-- The right half of `str.strip()`: drop trailing whitespace. -/
def dropTrail (l : List Char) : List Char :=
  (l.reverse.dropWhile isSpacePy).reverse

/-- Python `str.strip()`: drop leading and trailing whitespace. -/
def pyStrip (l : List Char) : List Char :=
  dropTrail (l.dropWhile isSpacePy)

/-- A hexadecimal digit (`[0-9a-fA-F]`). -/
def isHexDigit (c : Char) : Bool :=
  c.isDigit || ('a' ≤ c && c ≤ 'f') || ('A' ≤ c && c ≤ 'F')

/-- Modelled from the spec: the MAC validator `VALID_COLON_MAC` lives in
`xcp/net/mac.py`, which is not under `src/`; the spec describes it as
six colon-separated two-digit hexadecimal octets, case-insensitive. -/
def validMac (l : List Char) : Bool :=
  match l with
  | [a, b, ':', c, d, ':', e, f, ':', g, h, ':', i, j, ':', k, m] =>
    [a, b, c, d, e, f, g, h, i, j, k, m].all isHexDigit
  | _ => false

/-- Modelled from the spec: the PCI validator `VALID_SBDF` lives in
`xcp/pci.py`, which is not under `src/`; the spec describes it as the
bus-address syntax `domain:bus:device.function` with fixed-width
hexadecimal fields. -/
def validPci (l : List Char) : Bool :=
  match l with
  | [a, b, c, d, ':', e, f, ':', g, h, '.', i] =>
    [a, b, c, d, e, f, g, h, i].all isHexDigit
  | _ => false

/-- The ppn validator of `static.py` line 91:
`re.compile("^(?:em\d+|p(?:ci)?\d+p\d+)$")`, as a deterministic scanner
(the regex's alternatives and the optional `ci` never overlap, and the
greedy `\d+` groups cannot backtrack usefully, so no search is needed). -/
def validPpn (l : List Char) : Bool :=
  match l with
  | 'e' :: 'm' :: rest => !rest.isEmpty && rest.all Char.isDigit
  | 'p' :: rest =>
    let r := match rest with
      | 'c' :: 'i' :: r2 => r2
      | _ => rest
    let ds := r.takeWhile Char.isDigit
    (match r.dropWhile Char.isDigit with
     | 'p' :: tail => !ds.isEmpty && !tail.isEmpty && tail.all Char.isDigit
     | _ => false)
  | _ => false

/-- `StaticRules.methods` (static.py line 88). -/
def methods : List String := ["mac", "pci", "ppn", "label", "guess"]

/-- `StaticRules.validators` (static.py lines 89-92): the validator attached
to a method name, if any (`label` and `guess` have none). -/
def validatorFor (m : String) : Option (List Char → Bool) :=
  match m with
  | "mac" => some validMac
  | "pci" => some validPci
  | "ppn" => some validPpn
  | _ => none

/-- Run a method's validator on a value; methods without a validator accept
anything (`if method in StaticRules.validators`). -/
def validatorOkB (m : String) (v : String) : Bool :=
  match validatorFor m with
  | none => true
  | some f => f v.data

/-- The `VALID_LINE` regular expression (static.py lines 56-61),
`^\s*(?P<target>eth\d+)\s*(?::\s*(?P<method>[^=]+?))?\s*=\s*(?P<val>.+)$`,
as an equivalent deterministic scanner returning the `target`, optional
`method` and `val` groups.  The method group is returned as the whole text
between the colon and the first `=`; the regex distributes its surrounding
`\s*` differently, but the caller strips every group, so the stripped
results agree, and the group exists in both exactly when that text is
nonempty.  `.+` does not match a newline; callers pass single stripped
lines (so the `val` group is never all-whitespace).

The scanner is split into one definition per grammar region, leaf first:
the tail after `=`, the method part after a colon, the dispatch after the
target, and `matchLine` itself. -/
def matchValue (r5 ds : List Char) (mg : Option (List Char)) :
    Option (List Char × Option (List Char) × List Char) :=
  let v := r5.dropWhile isSpacePy
  if v.isEmpty then none
  else some ('e' :: 't' :: 'h' :: ds, mg, v)

/-- The `\s*(?P<method>[^=]+?)\s*=` part of `VALID_LINE` after a colon was
seen: the method group is the (nonempty) text before the first `=`. -/
def matchAfterColon (r3 ds : List Char) :
    Option (List Char × Option (List Char) × List Char) :=
  let seg := r3.takeWhile (fun c => c != '=')
  match r3.dropWhile (fun c => c != '=') with
  | c5 :: r5 =>
    if c5 == '=' then
      if seg.isEmpty then none else matchValue r5 ds (some seg)
    else none
  | [] => none

/-- After `eth<digits>` and whitespace: either `:<method>=` or directly `=`. -/
def matchAfterTarget (r2 ds : List Char) :
    Option (List Char × Option (List Char) × List Char) :=
  match r2 with
  | c4 :: r3 =>
    if c4 == ':' then matchAfterColon r3 ds
    else if c4 == '=' then matchValue r3 ds none
    else none
  | [] => none

def matchLine (l : List Char) : Option (List Char × Option (List Char) × List Char) :=
  match l.dropWhile isSpacePy with
  | c1 :: c2 :: c3 :: rest =>
    if c1 == 'e' && c2 == 't' && c3 == 'h' then
      if (rest.takeWhile Char.isDigit).isEmpty then none
      else
        matchAfterTarget ((rest.dropWhile Char.isDigit).dropWhile isSpacePy)
          (rest.takeWhile Char.isDigit)
    else none
  | _ => none

/-- The method defaulting of `load_and_parse` (static.py lines 154-160): a
missing method group defaults to the sentinel `guess`, a present one is
stripped. -/
def parsedMethod (mg : Option (List Char)) : String :=
  match mg with
  | none => "guess"
  | some m => String.mk (pyStrip m)

/-- The value processing of `load_and_parse` (static.py lines 162-167):
strip, then strip one layer of matching single or double quotes
(`value[0] == value[-1] and value[0] in ("'", '"')`), and inside that
branch rewrite a value equal to `guess` to `label`
(`if value == "guess": value = "label"`). -/
def parsedValue (vg : List Char) : List Char :=
  let value0 := pyStrip vg
  match value0.head?, value0.getLast? with
  | some c0, some c1 =>
    if c0 == c1 && (c0 == '\'' || c0 == '"') then
      let inner := (value0.drop 1).dropLast
      if inner = "guess".data then "label".data else inner
    else value0
  | _, _ => value0

/-- The method-guessing loop of `load_and_parse` (static.py lines 176-183):
the first validator matching the value wins, else `label`.  The source
iterates `validators.iteritems()` in an arbitrary fixed dict order; the
embedding fixes the dict-literal order mac, pci, ppn. -/
def guessMethod (v : List Char) : String :=
  if validMac v then "mac"
  else if validPci v then "pci"
  else if validPpn v then "ppn"
  else "label"

/-- The method checks of `load_and_parse` (static.py lines 169-191):
membership in `StaticRules.methods`, guess resolution, and value
validation for methods that own a validator.  `none` means the line is
skipped with a warning. -/
def finishLine (target method0 : String) (value1 : List Char) :
    Option (String × String × String) :=
  if method0 ∈ methods then
    if method0 = "guess" then some (target, guessMethod value1, String.mk value1)
    else
      match validatorFor method0 with
      | none => some (target, method0, String.mk value1)
      | some f => if f value1 then some (target, method0, String.mk value1) else none
  else none

/-- One line of `StaticRules.load_and_parse` (static.py lines 142-191):
regex match, group stripping, quote stripping with the quoted-`guess`
value rewrite, method defaulting and membership check, method guessing,
and value validation — everything up to, but not including, the old-style
ppn translation. -/
def parseLinePre (l : List Char) : Option (String × String × String) :=
  match matchLine l with
  | none => none
  | some (tg, mg, vg) =>
    finishLine (String.mk (pyStrip tg)) (parsedMethod mg) (parsedValue vg)

/-- Does the value begin with the literal characters `pci`?
(`value.startswith("pci")`, static.py line 200). -/
def startsPci : List Char → Bool
  | 'p' :: 'c' :: 'i' :: _ => true
  | _ => false

/-- The CA-82901 old-style ppn translation (static.py lines 198-204): a `ppn`
value `pciXpY` is rewritten to `pXpY` (`value = "p" + value[3:]`). -/
def ppnTranslate (m : String) (v : String) : String :=
  if m == "ppn" && startsPci v.data then String.mk ('p' :: v.data.drop 3) else v

/-- A fully parsed line: `parseLinePre` followed by the ppn translation,
giving the `(target, method, value)` triple stored into `self.formulae`. -/
def parseLine (l : List Char) : Option (String × String × String) :=
  (parseLinePre l).map (fun e => (e.1, e.2.1, ppnTranslate e.2.1 e.2.2))

/-- The `self.formulae` dict, embedded as an association list of
`(target, method, value)` triples; dict semantics assumes pairwise-distinct
targets.  Python dict iteration order is arbitrary but fixed; the
embedding fixes first-insertion order (the serializer sorts keys anyway). -/
abbrev FormulaSet := List (String × String × String)

/-- `self.formulae[target] = (method, value)`: insert-or-replace. -/
def setFormula : FormulaSet → String → String → String → FormulaSet
  | [], t, m, v => [(t, m, v)]
  | e :: rest, t, m, v =>
    if e.1 = t then (t, m, v) :: rest else e :: setFormula rest t m v

/-- `self.formulae[target]` and the `target in self.formulae` test. -/
def lookupFormula (fs : FormulaSet) (t : String) : Option (String × String) :=
  (fs.find? (fun e => e.1 == t)).map (fun e => e.2)

/-- One iteration of the parsing loop of `load_and_parse` (static.py lines
137-206): strip the raw line, skip it when blank or a `#` comment, parse
it, and store a successful parse (a duplicate target overwrites, with a
warning). -/
def parseStep (acc : FormulaSet) (l : String) : FormulaSet :=
  match pyStrip l.data with
  | [] => acc
  | c :: cs =>
    if c = '#' then acc
    else
      match parseLine (c :: cs) with
      | none => acc
      | some (t, m, v) => setFormula acc t m v

/-- The parsing loop of `load_and_parse` over all raw lines. -/
def parseInto (fs : FormulaSet) (raw : List String) : FormulaSet :=
  raw.foldl parseStep fs

/-- The external `MACPCI` binding record (`xcp.net.ifrename.macpci`, not
under `src/`): per the spec an opaque triple of a MAC, a PCI address and
the bound target name, whose constructor may fail. -/
structure MACPCI where
  mac : String
  pci : String
  tname : String
deriving DecidableEq, Repr

/-- Modelled from the spec: the `MACPCI` constructor (not under `src/`)
"may fail (invalid field combination)"; the model fails exactly when the
MAC or the PCI field is not syntactically valid. -/
def mkMACPCI (mac pci tname : String) : Option MACPCI :=
  if validMac mac.data && validPci pci.data then some ⟨mac, pci, tname⟩ else none

/-- A discovered NIC descriptor (external collaborator, read-only): the four
lookup fields, with `ppn` nullable. -/
structure NIC where
  mac : String
  pci : String
  ppn : Option String
  label : String
deriving DecidableEq, Repr

/-- The state of a `StaticRules` object (static.py `__init__`, lines 94-99):
the parsed formulae and the accumulated rules.  `path`/`fd` belong to the
external I/O collaborator and appear as the `Option (List String)` line
source argument of `loadAndParse` instead. -/
structure SRState where
  formulae : FormulaSet
  rules : List MACPCI
deriving DecidableEq, Repr

/-- `StaticRules.__init__`: `self.formulae = {}`, `self.rules = []`. -/
def SRState.init : SRState := ⟨[], []⟩

/-- `StaticRules.load_and_parse` (static.py lines 101-208).  The I/O part —
path check, `open`, `readlines`, `IOError` — is the external line-source
collaborator, embedded as `Option (List String)`: `none` covers the
missing-path, missing-source and read-error returns, where the method
returns `False` with the state untouched; otherwise all lines are
processed and it returns `True`. -/
def loadAndParse (src : Option (List String)) (s : SRState) : SRState × Bool :=
  match src with
  | none => (s, false)
  | some raw => (⟨parseInto s.formulae raw, s.rules⟩, true)

/-- One per-method scanning loop of `StaticRules.generate` (e.g. lines
226-240): walk the NICs in order; on a NIC whose field matches, try to
construct a `MACPCI`; a construction failure (`except ... continue`)
moves on to the next NIC, success appends the rule and breaks.  `mk` is
the external `MACPCI` constructor, which may fail. -/
def findRule (mk : String → String → String → Option MACPCI)
    (p : NIC → Bool) (t : String) : List NIC → Option MACPCI
  | [] => none
  | n :: rest =>
    if p n then
      match mk n.mac n.pci t with
      | some r => some r
      | none => findRule mk p t rest
    else findRule mk p t rest

/-- The ppn-quirks flag (static.py lines 215-218):
`len(ppns) != len(set(ppns))` over the non-null ppns. -/
def ppnQuirks (st : List NIC) : Bool :=
  (st.filterMap NIC.ppn).dedup.length != (st.filterMap NIC.ppn).length

/-- The per-formula body of `StaticRules.generate` (lines 224-296): dispatch
on the method — mac, ppn (skipped entirely under quirks), pci, label —
and an unknown method is a critical-level log producing nothing. -/
def generateOne (mk : String → String → String → Option MACPCI)
    (st : List NIC) (quirks : Bool) (t m v : String) : List MACPCI :=
  if m = "mac" then (findRule mk (fun n => n.mac == v) t st).toList
  else if m = "ppn" then
    if quirks then [] else (findRule mk (fun n => n.ppn == some v) t st).toList
  else if m = "pci" then (findRule mk (fun n => n.pci == v) t st).toList
  else if m = "label" then (findRule mk (fun n => n.label == v) t st).toList
  else []

/-- All rules appended by one `generate` call, in formula-iteration order. -/
def generateRules (mk : String → String → String → Option MACPCI)
    (fs : FormulaSet) (st : List NIC) : List MACPCI :=
  fs.foldl (fun acc e => acc ++ generateOne mk st (ppnQuirks st) e.1 e.2.1 e.2.2) []

/-- `StaticRules.generate` (static.py lines 210-296): computes rules from
the formulae and the NIC state and appends them to `self.rules`. -/
def generate (mk : String → String → String → Option MACPCI)
    (s : SRState) (st : List NIC) : SRState :=
  ⟨s.formulae, s.rules ++ generateRules mk s.formulae st⟩

/-- The numeric sort key `int(x[3:])` of a target (static.py line 307).
`int` raises on a non-numeric suffix-string; the embedding is total and
returns an unspecified number there, and every theorem about `write`
restricts targets so that the source's `int` call succeeds. -/
def ethNum (t : String) : Nat :=
  (t.data.drop 3).foldl (fun n c => n * 10 + (c.toNat - 48)) 0

/-- `x.startswith("eth")` (static.py line 306). -/
def startsEth : List Char → Bool
  | 'e' :: 't' :: 'h' :: _ => true
  | _ => false

/-- The exact target shape `eth<digits>` of the data model. -/
def isEthTarget (t : String) : Bool :=
  match t.data with
  | 'e' :: 't' :: 'h' :: ds => !ds.isEmpty && ds.all Char.isDigit
  | _ => false

/-- The key order used by `write`'s sort. -/
def ethLe (a b : String) : Prop := ethNum a ≤ ethNum b

instance : DecidableRel ethLe := fun _ _ => Nat.decLe _ _

instance : IsTotal String ethLe := ⟨fun _ _ => Nat.le_total _ _⟩

instance : IsTrans String ethLe := ⟨fun _ _ _ => Nat.le_trans⟩

/-- `keys = list(set(<keys starting with eth>))`, then the stable numeric
sort (static.py lines 305-307).  `set()` removes duplicates in arbitrary
order; dict keys are already distinct, so the embedding uses `List.dedup`
and keeps first-occurrence order for the sort's tie-breaking. -/
def writeKeys (fs : FormulaSet) : List String :=
  List.insertionSort ethLe ((fs.map (fun e => e.1)).filter (fun t => startsEth t.data)).dedup

/-- The re-validation of one formula by `write` (lines 312-321): the method
must be recognised and must pass its validator, if it has one. -/
def writeOk (m v : String) : Bool :=
  decide (m ∈ methods) && validatorOkB m v

/-- One output line `"%s:%s=\"%s\""` (static.py line 323), character level;
the terminating `\n` is added by `writeBody`. -/
def formatLineData (t m v : List Char) : List Char :=
  t ++ ':' :: (m ++ '=' :: '"' :: (v ++ ['"']))

/-- One output line of `write`, as a string. -/
def formatLine (t m v : String) : String :=
  String.mk (formatLineData t.data m.data v.data)

/-- The body lines of `StaticRules.write` (lines 305-325), one string per
emitted formula, in sorted target order. -/
def writeLines (fs : FormulaSet) : List String :=
  (writeKeys fs).filterMap
    (fun t =>
      match lookupFormula fs t with
      | none => none
      | some (m, v) => if writeOk m v then some (formatLine t m v) else none)

/-- The targets for which `write` emits a line, in emission order. -/
def emittedTargets (fs : FormulaSet) : List String :=
  (writeKeys fs).filter
    (fun t =>
      match lookupFormula fs t with
      | none => false
      | some (m, v) => writeOk m v)

/-- The text of `StaticRules.write` with the header disabled:
`res += "...\n"` for each emitted formula. -/
def writeBody (fs : FormulaSet) : String :=
  (writeLines fs).foldl (fun acc l => acc ++ l ++ "\n") ""

/-- Proof-side auxiliary: the stored entries in the order the serializer
visits them — each sorted key paired with its looked-up formula. -/
def writeEntries (fs : FormulaSet) : FormulaSet :=
  (writeKeys fs).filterMap
    (fun t => (lookupFormula fs t).map (fun mv => (t, mv.1, mv.2)))

/-! ## Helper lemmas about the resolver -/

theorem foldl_append_acc {α β : Type} (g : α → List β) :
    ∀ (l : List α) (acc : List β),
      List.foldl (fun a e => a ++ g e) acc l
        = acc ++ List.foldl (fun a e => a ++ g e) [] l := by
  intro l
  induction l with
  | nil => intro acc; simp
  | cons e rest ih =>
    intro acc
    simp only [List.foldl_cons, List.nil_append]
    rw [ih (acc ++ g e), ih (g e), List.append_assoc]

theorem generateRules_cons (mk : String → String → String → Option MACPCI)
    (e : String × String × String) (fs : FormulaSet) (st : List NIC) :
    generateRules mk (e :: fs) st
      = generateOne mk st (ppnQuirks st) e.1 e.2.1 e.2.2 ++ generateRules mk fs st := by
  unfold generateRules
  simp only [List.foldl_cons, List.nil_append]
  rw [foldl_append_acc]

theorem generateOne_ppn_quirks (mk : String → String → String → Option MACPCI)
    (st : List NIC) (t v : String) :
    generateOne mk st true t "ppn" v = [] := by
  unfold generateOne
  rw [if_neg (by decide), if_pos rfl, if_pos rfl]

/-- C4: when two NICs share a non-null ppn value, every `ppn`-method formula
yields zero binding records — whatever its value — and the whole pass
produces exactly the records of the non-`ppn` formulas. -/
theorem generate_ppn_quirks_skip (mk : String → String → String → Option MACPCI)
    (st : List NIC) (h : ppnQuirks st = true) :
    (∀ t v, generateOne mk st (ppnQuirks st) t "ppn" v = []) ∧
    (∀ fs : FormulaSet,
      generateRules mk fs st
        = generateRules mk (fs.filter (fun e => e.2.1 != "ppn")) st) := by
  have h1 : ∀ t v, generateOne mk st (ppnQuirks st) t "ppn" v = [] := by
    intro t v
    rw [h]
    exact generateOne_ppn_quirks mk st t v
  refine ⟨h1, ?_⟩
  intro fs
  induction fs with
  | nil => rfl
  | cons e rest ih =>
    rw [generateRules_cons, List.filter_cons]
    by_cases hpn : e.2.1 = "ppn"
    · have hb : (e.2.1 != "ppn") = false := by simp [hpn]
      rw [hb]
      simp only [Bool.false_eq_true, if_false]
      rw [hpn] at *
      rw [h1 e.1 e.2.2, List.nil_append, ih]
    · have hb : (e.2.1 != "ppn") = true := by simp [hpn]
      rw [hb]
      simp only [if_true]
      rw [generateRules_cons, ih]

/-- Witness for C4 at a concrete input: two NICs share `ppn="p1p1"`, a `ppn`
formula (for a value that is not even the duplicated one) yields nothing,
and the pass equals the pass over the non-ppn formulas alone. -/
theorem generate_ppn_quirks_skip_witness :
    ppnQuirks [⟨"DE:AD:C0:DE:00:00", "0000:01:01.1", some "p1p1", "l1"⟩,
               ⟨"DE:AD:C0:DE:00:01", "0000:01:01.2", some "p1p1", "l2"⟩] = true ∧
    generateOne mkMACPCI
      [⟨"DE:AD:C0:DE:00:00", "0000:01:01.1", some "p1p1", "l1"⟩,
       ⟨"DE:AD:C0:DE:00:01", "0000:01:01.2", some "p1p1", "l2"⟩]
      (ppnQuirks [⟨"DE:AD:C0:DE:00:00", "0000:01:01.1", some "p1p1", "l1"⟩,
                  ⟨"DE:AD:C0:DE:00:01", "0000:01:01.2", some "p1p1", "l2"⟩])
      "eth0" "ppn" "p0p0" = [] ∧
    generateRules mkMACPCI [("eth0", "ppn", "p0p0"), ("eth1", "mac", "DE:AD:C0:DE:00:00")]
      [⟨"DE:AD:C0:DE:00:00", "0000:01:01.1", some "p1p1", "l1"⟩,
       ⟨"DE:AD:C0:DE:00:01", "0000:01:01.2", some "p1p1", "l2"⟩]
      = generateRules mkMACPCI
          ([("eth0", "ppn", "p0p0"), ("eth1", "mac", "DE:AD:C0:DE:00:00")].filter
            (fun e => e.2.1 != "ppn"))
          [⟨"DE:AD:C0:DE:00:00", "0000:01:01.1", some "p1p1", "l1"⟩,
           ⟨"DE:AD:C0:DE:00:01", "0000:01:01.2", some "p1p1", "l2"⟩] :=
  ⟨rfl,
   (generate_ppn_quirks_skip mkMACPCI
     [⟨"DE:AD:C0:DE:00:00", "0000:01:01.1", some "p1p1", "l1"⟩,
      ⟨"DE:AD:C0:DE:00:01", "0000:01:01.2", some "p1p1", "l2"⟩] rfl).1 "eth0" "p0p0",
   (generate_ppn_quirks_skip mkMACPCI
     [⟨"DE:AD:C0:DE:00:00", "0000:01:01.1", some "p1p1", "l1"⟩,
      ⟨"DE:AD:C0:DE:00:01", "0000:01:01.2", some "p1p1", "l2"⟩] rfl).2 _⟩

/-- C5: when record construction always succeeds, the scan binds the first
NIC (in list order) whose field matches the formula's value. -/
theorem findRule_first_match (mk : String → String → String → Option MACPCI)
    (h : ∀ a b c, (mk a b c).isSome = true) (p : NIC → Bool) (t : String) :
    ∀ st : List NIC,
      findRule mk p t st = (st.find? p).bind (fun n => mk n.mac n.pci t) := by
  intro st
  induction st with
  | nil => rfl
  | cons n rest ih =>
    unfold findRule
    by_cases hp : p n = true
    · rw [if_pos hp, List.find?_cons_of_pos _ hp]
      cases hmk : mk n.mac n.pci t with
      | none => exact absurd (h n.mac n.pci t) (by simp [hmk])
      | some r => simp [hmk]
    · rw [if_neg hp, List.find?_cons_of_neg _ (by simpa using hp), ih]

/-- Witness for C5: the spec's example — two NICs with the same MAC "A",
resolution yields exactly one record, built from the first NIC. -/
theorem findRule_first_match_witness :
    generateOne (fun a b c => some ⟨a, b, c⟩)
      [⟨"A", "0000:01:01.1", none, ""⟩, ⟨"A", "0000:01:01.2", none, ""⟩]
      false "eth0" "mac" "A" = [⟨"A", "0000:01:01.1", "eth0"⟩] := by
  have h := findRule_first_match (fun a b c => some ⟨a, b, c⟩)
    (fun _ _ _ => rfl) (fun n => n.mac == "A") "eth0"
    [⟨"A", "0000:01:01.1", none, ""⟩, ⟨"A", "0000:01:01.2", none, ""⟩]
  unfold generateOne
  rw [if_pos rfl, h]
  rfl

/-- C2 counterexample: the first NIC matches the formula's MAC value but its
record construction fails; the code then continues the scan and binds the
second matching NIC, so the formula does yield a record. -/
theorem findRule_failure_cex :
    (⟨"A", "bad", none, ""⟩ : NIC).mac = "A" ∧
    (fun a b c => if b = "bad" then (none : Option MACPCI) else some ⟨a, b, c⟩)
      "A" "bad" "eth0" = none ∧
    generateOne (fun a b c => if b = "bad" then none else some ⟨a, b, c⟩)
      [⟨"A", "bad", none, ""⟩, ⟨"A", "0000:01:01.1", none, ""⟩]
      false "eth0" "mac" "A" = [⟨"A", "0000:01:01.1", "eth0"⟩] :=
  ⟨rfl, rfl, rfl⟩

/-- C2 (amended): a construction failure makes the scan continue with the
NICs after the failing one; the formula binds the first matching NIC whose
construction succeeds, and yields no record only if every matching NIC
fails (or none matches). -/
theorem findRule_failure_continues (mk : String → String → String → Option MACPCI)
    (p : NIC → Bool) (t : String) :
    ∀ st : List NIC,
      findRule mk p t st = (st.filter p).findSome? (fun n => mk n.mac n.pci t) := by
  intro st
  induction st with
  | nil => rfl
  | cons n rest ih =>
    unfold findRule
    rw [List.filter_cons]
    by_cases hp : p n = true
    · rw [if_pos hp, hp]
      simp only [if_true, List.findSome?_cons]
      cases hmk : mk n.mac n.pci t with
      | none => simpa using ih
      | some r => simp
    · rw [if_neg hp]
      have : p n = false := by simpa using hp
      rw [this]
      simpa using ih

/-- C10: `generate` appends to the accumulated `rules` list without clearing
it, so a second call keeps the first call's records as the leading part of
the sequence, followed by the second call's records. -/
theorem generate_accumulates (mk : String → String → String → Option MACPCI)
    (s : SRState) (st1 st2 : List NIC) :
    (generate mk (generate mk s st1) st2).rules
      = s.rules ++ generateRules mk s.formulae st1 ++ generateRules mk s.formulae st2 := by
  simp [generate]

/-- C6: parsing succeeds (returns `True`) whenever a line sequence was
obtained, regardless of skipped lines; it fails only when no line source
is available (or reading failed), and then the state is unchanged. -/
theorem load_and_parse_result (src : Option (List String)) (s : SRState) :
    (src = none → loadAndParse src s = (s, false)) ∧
    (∀ raw, src = some raw → (loadAndParse src s).2 = true) := by
  constructor
  · intro h; subst h; rfl
  · intro raw h; subst h; rfl

/-- Witness for C6: a missing source leaves the formulae untouched and
returns failure; a source whose lines are all malformed, unknown-method or
invalid-value still returns success. -/
theorem load_and_parse_result_witness :
    loadAndParse none ⟨[("eth7", "mac", "AA")], []⟩ = (⟨[("eth7", "mac", "AA")], []⟩, false) ∧
    (loadAndParse (some ["junk line", "eth0:bogus=\"x\"", "eth0:mac=\"zz\"", "# c"])
      SRState.init).2 = true :=
  ⟨(load_and_parse_result none ⟨[("eth7", "mac", "AA")], []⟩).1 rfl,
   (load_and_parse_result (some ["junk line", "eth0:bogus=\"x\"", "eth0:mac=\"zz\"", "# c"])
      SRState.init).2 _ rfl⟩

/-- C1: the code evaluated at the failing input `eth5:label="guess"`.  The
claim (and the spec, and the source's own comment) call for the stored
formula `(eth5, label, "guess")`; lines 163-167 instead rewrite the
quote-stripped *value* to `"label"`, storing `(eth5, label, "label")`. -/
theorem parse_quoted_guess_value :
    parseLine "eth5:label=\"guess\"".data = some ("eth5", "label", "label") := by
  rfl

/-! ## Helper lemmas about the parser -/

theorem guessMethod_mem (v : List Char) :
    guessMethod v ∈ ["mac", "pci", "ppn", "label"] := by
  unfold guessMethod
  split_ifs <;> simp

theorem finishLine_method (t m0 : String) (v : List Char)
    (e : String × String × String) (h : finishLine t m0 v = some e) :
    e.2.1 ∈ ["mac", "pci", "ppn", "label"] := by
  unfold finishLine at h
  split at h
  · rename_i hmem
    split at h
    · obtain rfl := Option.some.inj h
      exact guessMethod_mem v
    · rename_i hg
      have hm4 : m0 ∈ ["mac", "pci", "ppn", "label"] := by
        have h5 : m0 = "mac" ∨ m0 = "pci" ∨ m0 = "ppn" ∨ m0 = "label" ∨ m0 = "guess" := by
          simpa [methods] using hmem
        rcases h5 with rfl | rfl | rfl | rfl | rfl
        · simp
        · simp
        · simp
        · simp
        · exact absurd rfl hg
      split at h
      · obtain rfl := Option.some.inj h
        exact hm4
      · split at h
        · obtain rfl := Option.some.inj h
          exact hm4
        · exact absurd h (by simp)
  · exact absurd h (by simp)

theorem parseLine_method (l : List Char) (e : String × String × String)
    (h : parseLine l = some e) : e.2.1 ∈ ["mac", "pci", "ppn", "label"] := by
  unfold parseLine at h
  cases hpre : parseLinePre l with
  | none => rw [hpre] at h; exact absurd h (by simp)
  | some e0 =>
    rw [hpre] at h
    obtain rfl := Option.some.inj h
    have : e0.2.1 ∈ ["mac", "pci", "ppn", "label"] := by
      unfold parseLinePre at hpre
      cases hml : matchLine l with
      | none => rw [hml] at hpre; exact absurd hpre (by simp)
      | some g =>
        rw [hml] at hpre
        exact finishLine_method _ _ _ _ hpre
    simpa using this

theorem mem_setFormula (acc : FormulaSet) (t m v : String)
    (e : String × String × String) (h : e ∈ setFormula acc t m v) :
    e ∈ acc ∨ e = (t, m, v) := by
  induction acc with
  | nil =>
    unfold setFormula at h
    right
    simpa using h
  | cons a rest ih =>
    unfold setFormula at h
    by_cases ha : a.1 = t
    · rw [if_pos ha] at h
      rcases List.mem_cons.mp h with h1 | h1
      · right; exact h1
      · left; exact List.mem_cons_of_mem a h1
    · rw [if_neg ha] at h
      rcases List.mem_cons.mp h with h1 | h1
      · left; exact h1 ▸ List.mem_cons_self a rest
      · rcases ih h1 with h2 | h2
        · left; exact List.mem_cons_of_mem a h2
        · right; exact h2

theorem parseStep_preserves (P : String × String × String → Prop)
    (hP : ∀ l e, parseLine l = some e → P e)
    (fs : FormulaSet) (l : String) (h : ∀ e ∈ fs, P e) :
    ∀ e ∈ parseStep fs l, P e := by
  intro e he
  unfold parseStep at he
  split at he
  · exact h e he
  · split at he
    · exact h e he
    · split at he
      · exact h e he
      · rename_i t m v hpl
        rcases mem_setFormula fs t m v e he with h1 | h1
        · exact h e h1
        · rw [h1]
          exact hP _ _ hpl

theorem parseInto_preserves (P : String × String × String → Prop)
    (hP : ∀ l e, parseLine l = some e → P e) :
    ∀ (raw : List String) (fs : FormulaSet),
      (∀ e ∈ fs, P e) → ∀ e ∈ parseInto fs raw, P e := by
  intro raw
  induction raw with
  | nil => intro fs h; exact h
  | cons l ls ih =>
    intro fs h
    have hstep : parseInto fs (l :: ls) = parseInto (parseStep fs l) ls := rfl
    rw [hstep]
    exact ih (parseStep fs l) (parseStep_preserves P hP fs l h)

/-- C8: whenever the parsed (possibly guessed) method of a line is `ppn` and
the validated value begins with the literal `pci`, the stored value has
that beginning replaced by `p` (`value = "p" + value[3:]`). -/
theorem parse_legacy_ppn (l : List Char) (t v : String)
    (h : parseLinePre l = some (t, "ppn", v)) (hv : startsPci v.data = true) :
    parseLine l = some (t, "ppn", String.mk ('p' :: v.data.drop 3)) := by
  unfold parseLine
  rw [h]
  simp [ppnTranslate, hv]

/-- Witness for C8: the spec's example `eth3:ppn="pci0p1"` parses to
`(eth3, ppn, "p0p1")`. -/
theorem parse_legacy_ppn_witness :
    parseLine "eth3:ppn=\"pci0p1\"".data = some ("eth3", "ppn", "p0p1") :=
  (parse_legacy_ppn "eth3:ppn=\"pci0p1\"".data "eth3" "pci0p1" rfl rfl).trans rfl

/-- C9: parsing never stores the pseudo-method `guess` — every formula added
by the parse loop carries a method among mac, pci, ppn, label — and a
guessed method is either `label` or one whose validator accepts the
value. -/
theorem parse_resolves_guess (raw : List String) (fs0 : FormulaSet)
    (h0 : ∀ e ∈ fs0, e.2.1 ∈ ["mac", "pci", "ppn", "label"]) :
    (∀ e ∈ parseInto fs0 raw, e.2.1 ∈ ["mac", "pci", "ppn", "label"]) ∧
    (∀ v : List Char,
      guessMethod v = "label" ∨ validatorOkB (guessMethod v) (String.mk v) = true) := by
  constructor
  · exact parseInto_preserves _ (fun l e h => parseLine_method l e h) raw fs0 h0
  · intro v
    unfold guessMethod
    by_cases h1 : validMac v = true
    · right; rw [if_pos h1]; simpa [validatorOkB, validatorFor] using h1
    · rw [if_neg h1]
      by_cases h2 : validPci v = true
      · right; rw [if_pos h2]; simpa [validatorOkB, validatorFor] using h2
      · rw [if_neg h2]
        by_cases h3 : validPpn v = true
        · right; rw [if_pos h3]; simpa [validatorOkB, validatorFor] using h3
        · rw [if_neg h3]; left; rfl

/-- Witness for C9: the spec's method-inference example
`eth4=00:de:ad:be:ef:00` stores method `mac`, a member of the four
concrete methods; and guessing on `p1p1` picks a validator-backed
method. -/
theorem parse_resolves_guess_witness :
    ("eth4", "mac", "00:de:ad:be:ef:00").2.1 ∈ ["mac", "pci", "ppn", "label"] ∧
    (guessMethod "p1p1".data = "label" ∨
      validatorOkB (guessMethod "p1p1".data) (String.mk "p1p1".data) = true) :=
  ⟨(parse_resolves_guess ["eth4=00:de:ad:be:ef:00"] [] (by simp)).1
      ("eth4", "mac", "00:de:ad:be:ef:00") (by decide),
   (parse_resolves_guess [] [] (by simp)).2 "p1p1".data⟩

/-! ## Helper lemmas about the serializer's key order -/

theorem writeKeys_sorted (fs : FormulaSet) : List.Sorted ethLe (writeKeys fs) :=
  List.sorted_insertionSort ethLe _

theorem writeKeys_nodup (fs : FormulaSet) : (writeKeys fs).Nodup :=
  ((List.perm_insertionSort ethLe _).nodup_iff).mpr (List.nodup_dedup _)

theorem writeKeys_mem (fs : FormulaSet) (t : String) (h : t ∈ writeKeys fs) :
    t ∈ fs.map (fun e => e.1) := by
  unfold writeKeys at h
  have h1 := (List.perm_insertionSort ethLe _).mem_iff.mp h
  have h2 := List.mem_dedup.mp h1
  exact (List.mem_filter.mp h2).1

/-- C7 (amended): the serializer emits targets in nondecreasing numeric-key
order, and strictly increasing whenever distinct stored targets have
distinct numeric keys (which fails only for aliases such as `eth01`
next to `eth1`). -/
theorem write_targets_sorted (fs : FormulaSet)
    (hinj : ∀ a ∈ fs.map (fun e => e.1), ∀ b ∈ fs.map (fun e => e.1),
      ethNum a = ethNum b → a = b) :
    List.Chain' (fun x y => x < y) ((emittedTargets fs).map ethNum) := by
  have hsub : (emittedTargets fs).Sublist (writeKeys fs) := List.filter_sublist _
  have hsor : List.Pairwise ethLe (emittedTargets fs) :=
    List.Pairwise.sublist hsub (writeKeys_sorted fs)
  have hnd : (emittedTargets fs).Nodup := List.Nodup.sublist hsub (writeKeys_nodup fs)
  have hlt : List.Pairwise (fun a b => ethNum a < ethNum b) (emittedTargets fs) := by
    have hand := List.Pairwise.and hsor hnd
    refine hand.imp_of_mem ?_
    intro a b ha hb hab
    have ha' : a ∈ fs.map (fun e => e.1) :=
      writeKeys_mem fs a (List.mem_of_mem_filter ha)
    have hb' : b ∈ fs.map (fun e => e.1) :=
      writeKeys_mem fs b (List.mem_of_mem_filter hb)
    have hne : ethNum a ≠ ethNum b := fun he => hab.2 (hinj a ha' b hb' he)
    exact lt_of_le_of_ne hab.1 hne
  exact List.chain'_iff_pairwise.mpr (List.pairwise_map.mpr hlt)

/-- C7 counterexample: the FormulaSet holding both `eth01` and `eth1` (two
distinct targets of the data-model shape `eth<digits>`) emits both lines,
and the emitted numeric keys `[1, 1]` are not strictly increasing. -/
theorem write_targets_sorted_cex :
    emittedTargets [("eth01", "label", "a"), ("eth1", "label", "b")] = ["eth01", "eth1"] ∧
    ¬ List.Chain' (fun x y => x < y)
        ((emittedTargets [("eth01", "label", "a"), ("eth1", "label", "b")]).map ethNum) := by
  constructor
  · rfl
  · intro hch
    have h1 : (emittedTargets [("eth01", "label", "a"), ("eth1", "label", "b")]).map ethNum
        = [1, 1] := rfl
    rw [h1] at hch
    exact absurd (List.chain'_cons.mp hch).1 (by decide)

/-- Witness for C7 at the spec's example: targets `eth10`, `eth2`, `eth1`
come out in the order `eth1, eth2, eth10`, strictly increasing. -/
theorem write_targets_sorted_witness :
    List.Chain' (fun x y => x < y)
      ((emittedTargets
        [("eth10", "label", "a"), ("eth2", "label", "b"), ("eth1", "label", "c")]).map
          ethNum) :=
  write_targets_sorted
    [("eth10", "label", "a"), ("eth2", "label", "b"), ("eth1", "label", "c")] (by decide)

/-! ## Helper lemmas for the serialize/parse round trip -/

theorem takeWhile_append_cons (p : Char → Bool) (l : List Char) (c : Char)
    (r : List Char) (hl : ∀ x ∈ l, p x = true) (hc : p c = false) :
    (l ++ c :: r).takeWhile p = l := by
  induction l with
  | nil => simp [List.takeWhile_cons, hc]
  | cons a as ih =>
    have ha : p a = true := hl a (List.mem_cons_self a as)
    simp [List.takeWhile_cons, ha,
      ih (fun x hx => hl x (List.mem_cons_of_mem a hx))]

theorem dropWhile_append_cons (p : Char → Bool) (l : List Char) (c : Char)
    (r : List Char) (hl : ∀ x ∈ l, p x = true) (hc : p c = false) :
    (l ++ c :: r).dropWhile p = c :: r := by
  induction l with
  | nil => simp [List.dropWhile_cons, hc]
  | cons a as ih =>
    have ha : p a = true := hl a (List.mem_cons_self a as)
    simp [List.dropWhile_cons, ha,
      ih (fun x hx => hl x (List.mem_cons_of_mem a hx))]

theorem pyStrip_eq_self (l : List Char)
    (h1 : ∀ c, l.head? = some c → isSpacePy c = false)
    (h2 : ∀ c, l.getLast? = some c → isSpacePy c = false) :
    pyStrip l = l := by
  cases l with
  | nil => rfl
  | cons a as =>
    have ha : isSpacePy a = false := h1 a rfl
    obtain ⟨bs, b, hconc⟩ : ∃ bs b, a :: as = bs ++ [b] := by
      rcases List.eq_nil_or_concat (a :: as) with hc | ⟨bs, b, hc⟩
      · exact absurd hc (by simp)
      · exact ⟨bs, b, by simpa [List.concat_eq_append] using hc⟩
    have hb : isSpacePy b = false := h2 b (by rw [hconc, List.getLast?_concat])
    unfold pyStrip dropTrail
    rw [List.dropWhile_cons, ha]
    simp only [Bool.false_eq_true, if_false]
    rw [hconc, List.reverse_concat, List.dropWhile_cons, hb]
    simp only [Bool.false_eq_true, if_false]
    rw [List.reverse_cons, List.reverse_reverse]

theorem isSpacePy_of_digit (c : Char) (h : c.isDigit = true) :
    isSpacePy c = false := by
  by_contra hs
  have hs' : isSpacePy c = true := by
    cases hc : isSpacePy c
    · exact absurd hc hs
    · rfl
  have hd : ((((c = ' ' ∨ c = '\t') ∨ c = '\n') ∨ c = '\x0d') ∨ c = '\x0b') ∨ c = '\x0c' := by
    simpa [isSpacePy] using hs'
  rcases hd with ((((rfl | rfl) | rfl) | rfl) | rfl) | rfl <;> exact absurd h (by decide)

theorem isEthTarget_spec (t : String) (h : isEthTarget t = true) :
    ∃ ds, t.data = 'e' :: 't' :: 'h' :: ds ∧ ds ≠ [] ∧ ds.all Char.isDigit = true := by
  unfold isEthTarget at h
  split at h
  · rename_i ds heq
    rw [Bool.and_eq_true] at h
    refine ⟨ds, heq, ?_, h.2⟩
    intro hnil
    rw [hnil] at h
    exact absurd h.1 (by decide)
  · exact absurd h (by decide)

theorem formatLineData_concat (tl ml vl : List Char) :
    formatLineData tl ml vl = (tl ++ ':' :: (ml ++ '=' :: '"' :: vl)) ++ ['"'] := by
  simp [formatLineData, List.append_assoc]

theorem formatLineData_getLast (tl ml vl : List Char) :
    (formatLineData tl ml vl).getLast? = some '"' := by
  rw [formatLineData_concat, List.getLast?_concat]

theorem matchLine_cons_eth (rest : List Char) :
    matchLine ('e' :: 't' :: 'h' :: rest)
      = (if (rest.takeWhile Char.isDigit).isEmpty then none
         else matchAfterTarget ((rest.dropWhile Char.isDigit).dropWhile isSpacePy)
           (rest.takeWhile Char.isDigit)) := rfl

theorem matchValue_spec (r5 ds : List Char) (mg : Option (List Char)) (c : Char)
    (r : List Char) (h : r5 = c :: r) (hc : isSpacePy c = false) :
    matchValue r5 ds mg = some ('e' :: 't' :: 'h' :: ds, mg, r5) := by
  subst h
  unfold matchValue
  rw [List.dropWhile_cons, hc]
  simp

theorem matchAfterColon_spec (r3 ds seg r5 : List Char)
    (h1 : r3.takeWhile (fun c => c != '=') = seg)
    (h2 : r3.dropWhile (fun c => c != '=') = '=' :: r5)
    (h3 : seg ≠ []) :
    matchAfterColon r3 ds = matchValue r5 ds (some seg) := by
  unfold matchAfterColon
  simp only [h1, h2]
  have h4 : ¬(seg.isEmpty = true) := fun hc => h3 (by simpa using hc)
  simp [h4]

theorem matchAfterTarget_colon (r3 ds : List Char) :
    matchAfterTarget (':' :: r3) ds = matchAfterColon r3 ds := rfl

theorem matchLine_format (ds m v : List Char)
    (hds : ds ≠ []) (hdig : ds.all Char.isDigit = true)
    (hm0 : m ≠ []) (hmeq : ∀ c ∈ m, (c != '=') = true) :
    matchLine ('e' :: 't' :: 'h' :: (ds ++ ':' :: (m ++ '=' :: '"' :: (v ++ ['"']))))
      = some ('e' :: 't' :: 'h' :: ds, some m, '"' :: (v ++ ['"'])) := by
  have hdigs : ∀ x ∈ ds, Char.isDigit x = true := fun x hx => List.all_eq_true.mp hdig x hx
  rw [matchLine_cons_eth]
  rw [takeWhile_append_cons Char.isDigit ds ':' _ hdigs (by decide),
      dropWhile_append_cons Char.isDigit ds ':' _ hdigs (by decide)]
  have hdne : ¬(ds.isEmpty = true) := fun hc => hds (by simpa using hc)
  rw [if_neg hdne]
  rw [show ((':' :: (m ++ '=' :: '"' :: (v ++ ['"']))).dropWhile isSpacePy)
      = ':' :: (m ++ '=' :: '"' :: (v ++ ['"'])) from rfl]
  rw [matchAfterTarget_colon]
  rw [matchAfterColon_spec (m ++ '=' :: '"' :: (v ++ ['"'])) ds m ('"' :: (v ++ ['"']))
      (takeWhile_append_cons _ m '=' _ hmeq (by decide))
      (dropWhile_append_cons _ m '=' _ hmeq (by decide)) hm0]
  exact matchValue_spec ('"' :: (v ++ ['"'])) ds (some m) '"' (v ++ ['"']) rfl rfl

theorem parsedValue_quoted (v : List Char) (hg : v ≠ "guess".data) :
    parsedValue ('"' :: (v ++ ['"'])) = v := by
  have hstrip : pyStrip ('"' :: (v ++ ['"'])) = '"' :: (v ++ ['"']) := by
    apply pyStrip_eq_self
    · intro c hc
      obtain rfl : '"' = c := Option.some.inj hc
      rfl
    · intro c hc
      rw [show ('"' :: (v ++ ['"'])) = ('"' :: v) ++ ['"'] by simp,
        List.getLast?_concat] at hc
      obtain rfl : '"' = c := Option.some.inj hc
      rfl
  have hlast : ('"' :: (v ++ ['"'])).getLast? = some '"' := by
    rw [show ('"' :: (v ++ ['"'])) = ('"' :: v) ++ ['"'] by simp, List.getLast?_concat]
  unfold parsedValue
  simp only [hstrip, List.head?_cons, hlast]
  rw [if_pos (by decide)]
  simp only [List.drop_succ_cons, List.drop_zero, List.dropLast_concat]
  rw [if_neg hg]

theorem validatorOk_spec (m : String) (v : String) (hv : validatorOkB m v = true) :
    ∀ f, validatorFor m = some f → f v.data = true := by
  intro f hf
  unfold validatorOkB at hv
  rw [hf] at hv
  exact hv

theorem finishLine_valid (t m : String) (vl : List Char)
    (hmem : m ∈ methods) (hg : m ≠ "guess")
    (hval : ∀ f, validatorFor m = some f → f vl = true) :
    finishLine t m vl = some (t, m, String.mk vl) := by
  unfold finishLine
  rw [if_pos hmem, if_neg hg]
  split
  · rfl
  · rename_i f hvf
    rw [if_pos (hval f hvf)]

theorem parseLinePre_of_match (l tg : List Char) (mg : Option (List Char))
    (vg : List Char) (h : matchLine l = some (tg, mg, vg)) :
    parseLinePre l = finishLine (String.mk (pyStrip tg)) (parsedMethod mg) (parsedValue vg) := by
  unfold parseLinePre
  rw [h]

theorem parseLine_of_pre (l : List Char) (e : String × String × String)
    (h : parseLinePre l = some e) :
    parseLine l = some (e.1, e.2.1, ppnTranslate e.2.1 e.2.2) := by
  unfold parseLine
  rw [h]
  rfl

theorem parseLine_format (t m v : String)
    (ht : isEthTarget t = true)
    (hm : m ∈ ["mac", "pci", "ppn", "label"])
    (hv : validatorOkB m v = true)
    (hg : v ≠ "guess")
    (hp : m = "ppn" → startsPci v.data = false) :
    parseLine (formatLineData t.data m.data v.data) = some (t, m, v) := by
  obtain ⟨ds, hT, hne, hdig⟩ := isEthTarget_spec t ht
  have hgd : v.data ≠ "guess".data := fun hd => hg (congrArg String.mk hd)
  have hfmt : formatLineData t.data m.data v.data
      = 'e' :: 't' :: 'h' :: (ds ++ ':' :: (m.data ++ '=' :: '"' :: (v.data ++ ['"']))) := by
    unfold formatLineData
    rw [hT]
    rfl
  have hstript : pyStrip ('e' :: 't' :: 'h' :: ds) = 'e' :: 't' :: 'h' :: ds := by
    apply pyStrip_eq_self
    · intro c hc
      obtain rfl : 'e' = c := Option.some.inj hc
      rfl
    · intro c hc
      obtain ⟨ds0, b, hconc⟩ : ∃ ds0 b, ds = ds0 ++ [b] := by
        rcases List.eq_nil_or_concat ds with h0 | ⟨ds0, b, h0⟩
        · exact absurd h0 hne
        · exact ⟨ds0, b, by simpa [List.concat_eq_append] using h0⟩
      rw [hconc,
        show ('e' :: 't' :: 'h' :: (ds0 ++ [b])) = ('e' :: 't' :: 'h' :: ds0) ++ [b] by simp,
        List.getLast?_concat] at hc
      obtain rfl : b = c := Option.some.inj hc
      have hcd : b ∈ ds := by
        rw [hconc]
        simp
      exact isSpacePy_of_digit b (List.all_eq_true.mp hdig b hcd)
  have hmv : ∀ f, validatorFor m = some f → f v.data = true := validatorOk_spec m v hv
  rw [hfmt]
  rcases (by simpa using hm : m = "mac" ∨ m = "pci" ∨ m = "ppn" ∨ m = "label") with
    rfl | rfl | rfl | rfl
  · rw [parseLine_of_pre _ _ (by
      rw [parseLinePre_of_match _ _ _ _
        (matchLine_format ds "mac".data v.data hne hdig (by decide) (by decide))]
      rw [parsedValue_quoted v.data hgd, hstript, ← hT]
      exact finishLine_valid (String.mk t.data) "mac" v.data (by decide) (by decide)
        (fun f hf => by rw [show f = validMac from (Option.some.inj hf).symm]; exact hmv validMac rfl))]
    simp [ppnTranslate]
  · rw [parseLine_of_pre _ _ (by
      rw [parseLinePre_of_match _ _ _ _
        (matchLine_format ds "pci".data v.data hne hdig (by decide) (by decide))]
      rw [parsedValue_quoted v.data hgd, hstript, ← hT]
      exact finishLine_valid (String.mk t.data) "pci" v.data (by decide) (by decide)
        (fun f hf => by rw [show f = validPci from (Option.some.inj hf).symm]; exact hmv validPci rfl))]
    simp [ppnTranslate]
  · rw [parseLine_of_pre _ _ (by
      rw [parseLinePre_of_match _ _ _ _
        (matchLine_format ds "ppn".data v.data hne hdig (by decide) (by decide))]
      rw [parsedValue_quoted v.data hgd, hstript, ← hT]
      exact finishLine_valid (String.mk t.data) "ppn" v.data (by decide) (by decide)
        (fun f hf => by rw [show f = validPpn from (Option.some.inj hf).symm]; exact hmv validPpn rfl))]
    simp [ppnTranslate, hp rfl]
  · rw [parseLine_of_pre _ _ (by
      rw [parseLinePre_of_match _ _ _ _
        (matchLine_format ds "label".data v.data hne hdig (by decide) (by decide))]
      rw [parsedValue_quoted v.data hgd, hstript, ← hT]
      exact finishLine_valid (String.mk t.data) "label" v.data (by decide) (by decide)
        (fun f hf => by exact absurd hf (by simp [validatorFor])))]
    simp [ppnTranslate]

theorem setFormula_of_not_mem (acc : FormulaSet) (t m v : String)
    (h : ∀ e ∈ acc, e.1 ≠ t) : setFormula acc t m v = acc ++ [(t, m, v)] := by
  induction acc with
  | nil => rfl
  | cons a rest ih =>
    unfold setFormula
    rw [if_neg (h a (List.mem_cons_self a rest))]
    rw [ih (fun e he => h e (List.mem_cons_of_mem a he))]
    rfl

theorem parseStep_of_strip (acc : FormulaSet) (l : String) (c : Char)
    (cs : List Char) (hs : pyStrip l.data = c :: cs) (hc : ¬(c = '#'))
    (e : String × String × String) (hpl : parseLine (c :: cs) = some e) :
    parseStep acc l = setFormula acc e.1 e.2.1 e.2.2 := by
  unfold parseStep
  rw [hs]
  show (if c = '#' then acc
        else match parseLine (c :: cs) with
             | none => acc
             | some (t, m, v) => setFormula acc t m v) = setFormula acc e.1 e.2.1 e.2.2
  rw [if_neg hc, hpl]

theorem parseStep_format (acc : FormulaSet) (t m v : String)
    (ht : isEthTarget t = true)
    (hline : parseLine (formatLineData t.data m.data v.data) = some (t, m, v))
    (hfresh : ∀ a ∈ acc, a.1 ≠ t) :
    parseStep acc (formatLine t m v) = acc ++ [(t, m, v)] := by
  obtain ⟨ds, hT, hne, hdig⟩ := isEthTarget_spec t ht
  have hfmt : formatLineData t.data m.data v.data
      = 'e' :: (('t' :: 'h' :: ds) ++ ':' :: (m.data ++ '=' :: '"' :: (v.data ++ ['"']))) := by
    unfold formatLineData
    rw [hT]
    rfl
  have hstrip : pyStrip (formatLineData t.data m.data v.data)
      = formatLineData t.data m.data v.data := by
    apply pyStrip_eq_self
    · intro c hc
      rw [hfmt] at hc
      obtain rfl : 'e' = c := Option.some.inj hc
      rfl
    · intro c hc
      rw [formatLineData_getLast] at hc
      obtain rfl : '"' = c := Option.some.inj hc
      rfl
  have hs : pyStrip (formatLine t m v).data
      = 'e' :: (('t' :: 'h' :: ds) ++ ':' :: (m.data ++ '=' :: '"' :: (v.data ++ ['"']))) := by
    rw [show (formatLine t m v).data = formatLineData t.data m.data v.data from rfl,
      hstrip, hfmt]
  have hpl : parseLine
      ('e' :: (('t' :: 'h' :: ds) ++ ':' :: (m.data ++ '=' :: '"' :: (v.data ++ ['"']))))
      = some (t, m, v) := by
    rw [← hfmt]
    exact hline
  rw [parseStep_of_strip acc (formatLine t m v) 'e' _ hs (by decide) (t, m, v) hpl]
  exact setFormula_of_not_mem acc t m v hfresh

theorem parseInto_format (es : FormulaSet) :
    ∀ acc : FormulaSet,
      (∀ e ∈ es, isEthTarget e.1 = true ∧
        parseLine (formatLineData e.1.data e.2.1.data e.2.2.data) = some e) →
      (∀ e ∈ es, ∀ a ∈ acc, a.1 ≠ e.1) →
      (es.map (fun e => e.1)).Nodup →
      parseInto acc (es.map (fun e => formatLine e.1 e.2.1 e.2.2)) = acc ++ es := by
  induction es with
  | nil =>
    intro acc _ _ _
    simp [parseInto]
  | cons e rest ih =>
    intro acc hgood hfresh hnd
    have he := hgood e (List.mem_cons_self e rest)
    have hstep : parseStep acc (formatLine e.1 e.2.1 e.2.2) = acc ++ [e] :=
      parseStep_format acc e.1 e.2.1 e.2.2 he.1 he.2
        (fun a ha => hfresh e (List.mem_cons_self e rest) a ha)
    have hred : parseInto acc ((e :: rest).map (fun x => formatLine x.1 x.2.1 x.2.2))
        = parseInto (parseStep acc (formatLine e.1 e.2.1 e.2.2))
            (rest.map (fun x => formatLine x.1 x.2.1 x.2.2)) := rfl
    rw [hred, hstep]
    have hnd' : (rest.map (fun x => x.1)).Nodup := by
      have := hnd
      simp only [List.map_cons, List.nodup_cons] at this
      exact this.2
    have hfst : e.1 ∉ rest.map (fun x => x.1) := by
      have := hnd
      simp only [List.map_cons, List.nodup_cons] at this
      exact this.1
    have hfresh' : ∀ x ∈ rest, ∀ a ∈ acc ++ [e], a.1 ≠ x.1 := by
      intro x hx a ha
      rcases List.mem_append.mp ha with ha1 | ha1
      · exact hfresh x (List.mem_cons_of_mem e hx) a ha1
      · have : a = e := by simpa using ha1
        rw [this]
        intro hax
        exact hfst (hax ▸ List.mem_map_of_mem (fun y => y.1) hx)
    rw [ih (acc ++ [e]) (fun x hx => hgood x (List.mem_cons_of_mem e hx)) hfresh' hnd']
    simp

theorem lookupFormula_cons_self (a : String × String × String) (rest : FormulaSet) :
    lookupFormula (a :: rest) a.1 = some a.2 := by
  unfold lookupFormula
  simp [List.find?_cons]

theorem lookupFormula_cons_ne (a : String × String × String) (rest : FormulaSet)
    (t : String) (h : (a.1 == t) = false) :
    lookupFormula (a :: rest) t = lookupFormula rest t := by
  unfold lookupFormula
  simp only [List.find?_cons, h]

theorem find?_some_pred {α : Type} (p : α → Bool) (l : List α) (a : α)
    (h : l.find? p = some a) : p a = true := by
  induction l with
  | nil => exact absurd h (by simp)
  | cons x xs ih =>
    rw [List.find?_cons] at h
    cases hp : p x
    · rw [hp] at h
      exact ih h
    · rw [hp] at h
      obtain rfl := Option.some.inj h
      exact hp

theorem lookup_mem (fs : FormulaSet) (t : String) (mv : String × String)
    (h : lookupFormula fs t = some mv) : (t, mv.1, mv.2) ∈ fs := by
  unfold lookupFormula at h
  cases hf : fs.find? (fun e => e.1 == t) with
  | none =>
    rw [hf] at h
    exact absurd h (by simp)
  | some e0 =>
    rw [hf] at h
    have he0 : e0 ∈ fs := List.mem_of_find?_eq_some hf
    have hp := find?_some_pred (fun e => e.1 == t) fs e0 hf
    have ht : e0.1 = t := by simpa using hp
    have hmv : e0.2 = mv := Option.some.inj h
    rw [← hmv, ← ht]
    exact he0

theorem lookup_isSome (fs : FormulaSet) (t : String)
    (h : t ∈ fs.map (fun e => e.1)) : ∃ mv, lookupFormula fs t = some mv := by
  unfold lookupFormula
  obtain ⟨e, he, rfl⟩ := List.mem_map.mp h
  cases hf : fs.find? (fun x => x.1 == e.1) with
  | some e0 => exact ⟨e0.2, rfl⟩
  | none =>
    have := List.find?_eq_none.mp hf e he
    simp at this

theorem filterMapCongr {α β : Type} (l : List α) (f g : α → Option β)
    (h : ∀ a ∈ l, f a = g a) : l.filterMap f = l.filterMap g := by
  induction l with
  | nil => rfl
  | cons a as ih =>
    rw [List.filterMap_cons, List.filterMap_cons, h a (List.mem_cons_self a as),
      ih (fun x hx => h x (List.mem_cons_of_mem a hx))]

theorem lookup_eq_some_of_mem (fs : FormulaSet)
    (hnd : (fs.map (fun e => e.1)).Nodup) (e : String × String × String)
    (he : e ∈ fs) : lookupFormula fs e.1 = some e.2 := by
  induction fs with
  | nil => exact absurd he (by simp)
  | cons a rest ih =>
    rcases List.mem_cons.mp he with rfl | hr
    · exact lookupFormula_cons_self e rest
    · have hna : a.1 ∉ rest.map (fun x => x.1) := by
        have := hnd
        simp only [List.map_cons, List.nodup_cons] at this
        exact this.1
      have hne : (a.1 == e.1) = false := by
        have hx : ¬(a.1 = e.1) := by
          intro hax
          exact hna (hax ▸ List.mem_map_of_mem (fun x => x.1) hr)
        simpa using hx
      rw [lookupFormula_cons_ne a rest e.1 hne]
      have hnd' : (rest.map (fun x => x.1)).Nodup := by
        have := hnd
        simp only [List.map_cons, List.nodup_cons] at this
        exact this.2
      exact ih hnd' hr

theorem lookup_perm (fs gs : FormulaSet) (h : fs.Perm gs)
    (hnd : (fs.map (fun e => e.1)).Nodup) (t : String) :
    lookupFormula fs t = lookupFormula gs t := by
  have hndg : (gs.map (fun e => e.1)).Nodup := ((h.map (fun e => e.1)).nodup_iff).mp hnd
  cases hf : lookupFormula fs t with
  | none =>
    have hnm : t ∉ fs.map (fun e => e.1) := by
      intro hm
      obtain ⟨mv, hl⟩ := lookup_isSome fs t hm
      rw [hf] at hl
      exact absurd hl (by simp)
    cases hg : lookupFormula gs t with
    | none => rfl
    | some mv =>
      have hmem := List.mem_map_of_mem (fun e => e.1) (lookup_mem gs t mv hg)
      exact absurd (((h.map (fun e => e.1)).mem_iff).mpr hmem) hnm
  | some mv =>
    have hm : (t, mv.1, mv.2) ∈ fs := lookup_mem fs t mv hf
    have hmg : (t, mv.1, mv.2) ∈ gs := h.mem_iff.mp hm
    have := lookup_eq_some_of_mem gs hndg (t, mv.1, mv.2) hmg
    rw [this]

theorem self_reconstruct (fs : FormulaSet)
    (hnd : (fs.map (fun e => e.1)).Nodup) :
    (fs.map (fun e => e.1)).filterMap
      (fun t => (lookupFormula fs t).map (fun mv => (t, mv.1, mv.2))) = fs := by
  induction fs with
  | nil => rfl
  | cons a rest ih =>
    have hna : a.1 ∉ rest.map (fun x => x.1) := by
      have := hnd
      simp only [List.map_cons, List.nodup_cons] at this
      exact this.1
    have hnd' : (rest.map (fun x => x.1)).Nodup := by
      have := hnd
      simp only [List.map_cons, List.nodup_cons] at this
      exact this.2
    have hrest : ∀ t ∈ rest.map (fun x => x.1),
        (lookupFormula (a :: rest) t).map (fun mv => (t, mv.1, mv.2))
          = (lookupFormula rest t).map (fun mv => (t, mv.1, mv.2)) := by
      intro t htm
      have hne : (a.1 == t) = false := by
        have hx : ¬(a.1 = t) := fun hax => hna (hax ▸ htm)
        simpa using hx
      rw [lookupFormula_cons_ne a rest t hne]
    simp only [List.map_cons, List.filterMap_cons, lookupFormula_cons_self a rest,
      Option.map_some]
    rw [filterMapCongr _ _ _ hrest, ih hnd']
    rfl

theorem writeLines_filterMap (fs : FormulaSet) :
    ∀ ks : List String,
      (∀ t ∈ ks, ∀ mv, lookupFormula fs t = some mv → writeOk mv.1 mv.2 = true) →
      ks.filterMap (fun t =>
        match lookupFormula fs t with
        | none => none
        | some (m, v) => if writeOk m v then some (formatLine t m v) else none)
      = (ks.filterMap (fun t => (lookupFormula fs t).map (fun mv => (t, mv.1, mv.2)))).map
          (fun e => formatLine e.1 e.2.1 e.2.2) := by
  intro ks
  induction ks with
  | nil => intro _; rfl
  | cons t ks ih =>
    intro h
    simp only [List.filterMap_cons]
    cases hl : lookupFormula fs t with
    | none =>
      simp only [hl]
      exact ih (fun x hx => h x (List.mem_cons_of_mem t hx))
    | some mv =>
      have hok : writeOk mv.1 mv.2 = true := h t (List.mem_cons_self t ks) mv hl
      simp only [hl, hok, Option.map_some', if_true, List.map_cons]
      rw [ih (fun x hx => h x (List.mem_cons_of_mem t hx))]

theorem writeLines_eq (fs : FormulaSet)
    (hok : ∀ e ∈ fs, writeOk e.2.1 e.2.2 = true) :
    writeLines fs = (writeEntries fs).map (fun e => formatLine e.1 e.2.1 e.2.2) := by
  unfold writeLines writeEntries
  exact writeLines_filterMap fs (writeKeys fs)
    (fun t _ mv hl => hok (t, mv.1, mv.2) (lookup_mem fs t mv hl))

theorem filterMap_keys (fs : FormulaSet) :
    ∀ ks : List String,
      (∀ t ∈ ks, ∃ mv, lookupFormula fs t = some mv) →
      (ks.filterMap (fun t => (lookupFormula fs t).map (fun mv => (t, mv.1, mv.2)))).map
        (fun e => e.1) = ks := by
  intro ks
  induction ks with
  | nil => intro _; rfl
  | cons t ks ih =>
    intro h
    obtain ⟨mv, hl⟩ := h t (List.mem_cons_self t ks)
    simp only [List.filterMap_cons, hl, Option.map_some', List.map_cons]
    rw [ih (fun x hx => h x (List.mem_cons_of_mem t hx))]

theorem writeEntries_keys (fs : FormulaSet)
    (hlk : ∀ t ∈ writeKeys fs, ∃ mv, lookupFormula fs t = some mv) :
    (writeEntries fs).map (fun e => e.1) = writeKeys fs := by
  unfold writeEntries
  exact filterMap_keys fs (writeKeys fs) hlk

theorem startsEth_of_isEthTarget (t : String) (h : isEthTarget t = true) :
    startsEth t.data = true := by
  obtain ⟨ds, hT, _, _⟩ := isEthTarget_spec t h
  rw [hT]
  rfl

theorem writeKeys_perm (fs : FormulaSet)
    (hnd : (fs.map (fun e => e.1)).Nodup)
    (heth : ∀ t ∈ fs.map (fun e => e.1), startsEth t.data = true) :
    (writeKeys fs).Perm (fs.map (fun e => e.1)) := by
  unfold writeKeys
  rw [List.filter_eq_self.mpr (fun a ha => heth a ha)]
  rw [List.dedup_eq_self.mpr hnd]
  exact List.perm_insertionSort ethLe _

theorem writeEntries_perm (fs : FormulaSet)
    (hnd : (fs.map (fun e => e.1)).Nodup)
    (heth : ∀ t ∈ fs.map (fun e => e.1), startsEth t.data = true) :
    (writeEntries fs).Perm fs := by
  unfold writeEntries
  have h1 := (writeKeys_perm fs hnd heth).filterMap
    (fun t => (lookupFormula fs t).map (fun mv => (t, mv.1, mv.2)))
  rw [self_reconstruct fs hnd] at h1
  exact h1

theorem writeKeys_writeEntries (fs : FormulaSet)
    (hlk : ∀ t ∈ writeKeys fs, ∃ mv, lookupFormula fs t = some mv)
    (heth : ∀ t ∈ fs.map (fun e => e.1), startsEth t.data = true) :
    writeKeys (writeEntries fs) = writeKeys fs := by
  unfold writeKeys
  rw [writeEntries_keys fs hlk]
  rw [List.filter_eq_self.mpr (fun a ha => heth a (writeKeys_mem fs a ha))]
  rw [List.dedup_eq_self.mpr (writeKeys_nodup fs)]
  exact List.Sorted.insertionSort_eq (writeKeys_sorted fs)

theorem writeLines_writeEntries (fs : FormulaSet)
    (hnd : (fs.map (fun e => e.1)).Nodup)
    (hlk : ∀ t ∈ writeKeys fs, ∃ mv, lookupFormula fs t = some mv)
    (heth : ∀ t ∈ fs.map (fun e => e.1), startsEth t.data = true) :
    writeLines (writeEntries fs) = writeLines fs := by
  unfold writeLines
  rw [writeKeys_writeEntries fs hlk heth]
  apply filterMapCongr
  intro t _
  rw [lookup_perm (writeEntries fs) fs (writeEntries_perm fs hnd heth)
    (by rw [writeEntries_keys fs hlk]; exact writeKeys_nodup fs) t]

/-- C3 (amended): for a FormulaSet with distinct well-formed `eth<digits>`
targets whose entries all pass their method's validator, and in which no
value is the literal string `guess` and no `ppn` value begins with `pci`,
re-parsing the serializer's headerless output reconstructs an equal
FormulaSet (same mapping), and serializing again yields the same text. -/
theorem write_parse_roundtrip (fs : FormulaSet)
    (hnd : (fs.map (fun e => e.1)).Nodup)
    (ht : ∀ e ∈ fs, isEthTarget e.1 = true)
    (hm : ∀ e ∈ fs, e.2.1 ∈ ["mac", "pci", "ppn", "label"])
    (hv : ∀ e ∈ fs, validatorOkB e.2.1 e.2.2 = true)
    (hg : ∀ e ∈ fs, e.2.2 ≠ "guess")
    (hp : ∀ e ∈ fs, e.2.1 = "ppn" → startsPci e.2.2.data = false) :
    (∀ t, lookupFormula (parseInto [] (writeLines fs)) t = lookupFormula fs t) ∧
    writeBody (parseInto [] (writeLines fs)) = writeBody fs := by
  have hok : ∀ e ∈ fs, writeOk e.2.1 e.2.2 = true := by
    intro e he
    unfold writeOk
    rw [Bool.and_eq_true]
    refine ⟨?_, hv e he⟩
    rcases (by simpa using hm e he :
        e.2.1 = "mac" ∨ e.2.1 = "pci" ∨ e.2.1 = "ppn" ∨ e.2.1 = "label") with
      h4 | h4 | h4 | h4 <;> rw [h4] <;> decide
  have heth : ∀ t ∈ fs.map (fun e => e.1), startsEth t.data = true := by
    intro t htm
    obtain ⟨e, he, rfl⟩ := List.mem_map.mp htm
    exact startsEth_of_isEthTarget _ (ht e he)
  have hlk : ∀ t ∈ writeKeys fs, ∃ mv, lookupFormula fs t = some mv :=
    fun t htk => lookup_isSome fs t (writeKeys_mem fs t htk)
  have hperm : (writeEntries fs).Perm fs := writeEntries_perm fs hnd heth
  have hkeysE : (writeEntries fs).map (fun e => e.1) = writeKeys fs :=
    writeEntries_keys fs hlk
  have hndE : ((writeEntries fs).map (fun e => e.1)).Nodup := by
    rw [hkeysE]
    exact writeKeys_nodup fs
  have hgoodE : ∀ e ∈ writeEntries fs, isEthTarget e.1 = true ∧
      parseLine (formatLineData e.1.data e.2.1.data e.2.2.data) = some e := by
    intro e he
    have hef : e ∈ fs := hperm.subset he
    exact ⟨ht e hef,
      parseLine_format e.1 e.2.1 e.2.2 (ht e hef) (hm e hef) (hv e hef)
        (hg e hef) (hp e hef)⟩
  have hparse : parseInto [] (writeLines fs) = writeEntries fs := by
    rw [writeLines_eq fs hok]
    have := parseInto_format (writeEntries fs) [] hgoodE
      (fun e _ a ha => absurd ha (List.not_mem_nil a)) hndE
    simpa using this
  constructor
  · intro t
    rw [hparse]
    exact lookup_perm (writeEntries fs) fs hperm hndE t
  · rw [hparse]
    unfold writeBody
    rw [writeLines_writeEntries fs hnd hlk heth]

/-- C3 counterexample: the FormulaSet `{eth0 ↦ (label, "guess")}` passes the
claim's validator hypothesis (labels have no validator), yet re-parsing
the serializer's output stores the value `"label"`, not `"guess"` — the
quoted-`guess` rewrite of `load_and_parse` destroys the round trip. -/
theorem write_parse_roundtrip_cex :
    validatorOkB "label" "guess" = true ∧
    parseInto [] (writeLines [("eth0", "label", "guess")])
      = [("eth0", "label", "label")] ∧
    parseInto [] (writeLines [("eth0", "label", "guess")])
      ≠ [("eth0", "label", "guess")] := by
  refine ⟨rfl, rfl, ?_⟩
  decide

/-- Witness for C3 at a concrete two-entry FormulaSet. -/
theorem write_parse_roundtrip_witness :
    lookupFormula
      (parseInto [] (writeLines
        [("eth1", "mac", "DE:AD:C0:DE:00:00"), ("eth0", "label", "Slot3 NIC")]))
      "eth0" = some ("label", "Slot3 NIC") ∧
    writeBody
      (parseInto [] (writeLines
        [("eth1", "mac", "DE:AD:C0:DE:00:00"), ("eth0", "label", "Slot3 NIC")]))
      = writeBody [("eth1", "mac", "DE:AD:C0:DE:00:00"), ("eth0", "label", "Slot3 NIC")] :=
  ⟨((write_parse_roundtrip
      [("eth1", "mac", "DE:AD:C0:DE:00:00"), ("eth0", "label", "Slot3 NIC")]
      (by decide) (by decide) (by decide) (by decide) (by decide) (by decide)).1
        "eth0").trans (by decide),
   (write_parse_roundtrip
      [("eth1", "mac", "DE:AD:C0:DE:00:00"), ("eth0", "label", "Slot3 NIC")]
      (by decide) (by decide) (by decide) (by decide) (by decide) (by decide)).2⟩
